import Mathlib

/-!
Shallow embedding of `src/raffle.py` (arca-rand/arcalive-random).

The draw core (`pick_winners`) and the archive-rotation core
(`manage_archives`) are translated as executable Lean functions.  Python's
process-wide `random` generator is made explicit: functions that touch it
take the ambient generator state and return the new one.

Modelling choices for code outside this repository (the Python standard
library), documented where they are made:
* `random.seed` / `random.sample`: the spec commits only to "a
  uniform-without-replacement sampling algorithm equivalent to Fisher–Yates
  partial shuffle" driven by one specific, documented, deterministically
  seeded generator.  We model the generator as a 64-bit linear congruential
  generator and `sample` as CPython's pool-copy partial Fisher–Yates branch,
  including CPython's `0 <= k <= n` validation (`ValueError` otherwise).
* `int(s, 16)`: modelled for strings of plain hexadecimal digits
  (`ValueError`, i.e. `.error`, on the empty string or a non-hex character).
* `datetime.fromisoformat(...).year/.month`: modelled as a parser of the
  leading `YYYY-MM-DD` date portion with range validation.
-/

namespace Raffle

/-- State of the process-wide pseudorandom generator (`random` module).
Modelled as a 64-bit integer state; see the module docstring. -/
structure RngState where
  val : Nat
deriving DecidableEq, Repr

/-- Model of `random.seed(n)`: installs a generator state that is a function
of `n` alone, discarding the previous state. -/
def seedState (n : Nat) : RngState := ⟨n % 2 ^ 64⟩

/-- Model of `Random._randbelow(n)`: advances the generator and returns a
value `< n` (for `n > 0`) together with the new state. -/
def randbelow (s : RngState) (n : Nat) : Nat × RngState :=
  let v := (6364136223846793005 * s.val + 1442695040888963407) % 2 ^ 64
  ((v >>> 33) % n, ⟨v⟩)

/-- Model of `int(c, 16)` for one character: hexadecimal digit value. -/
def hexDigit (c : Char) : Option Nat :=
  if '0' ≤ c ∧ c ≤ '9' then some (c.toNat - 48)
  else if 'a' ≤ c ∧ c ≤ 'f' then some (c.toNat - 87)
  else if 'A' ≤ c ∧ c ≤ 'F' then some (c.toNat - 55)
  else none

/-- Fold of hexadecimal digits; `none` as soon as a non-digit appears. -/
def hexAux : List Char → Nat → Option Nat
  | [], acc => some acc
  | c :: cs, acc =>
    match hexDigit c with
    | some d => hexAux cs (acc * 16 + d)
    | none => none

/-- Model of `int(result_seed, 16)` (raises `ValueError` on the empty string
or a non-hex character; see module docstring for the modelled fragment). -/
def hexToInt (s : String) : Except String Nat :=
  match s.data with
  | [] => .error "invalid literal for int with base 16"
  | cs =>
    match hexAux cs 0 with
    | some n => .ok n
    | none => .error "invalid literal for int with base 16"

/-- Executable lexicographic comparison of character lists, by code point —
the comparison Python's `sorted` applies to `str` values. -/
def charListLe : List Char → List Char → Bool
  | [], _ => true
  | _ :: _, [] => false
  | a :: as, b :: bs => if a < b then true else if b < a then false else charListLe as bs

/-- Executable lexicographic `≤` on strings (code-point order), equivalent
to the standard string order (`strLe_iff`). -/
def strLe (a b : String) : Bool := charListLe a.data b.data

/-- Line 39 of `raffle.py`:
`valid_pool = sorted(list(set(p for p in participants if p not in excludes)))`.
Filter out excluded identifiers, deduplicate, sort lexicographically. -/
def valid_pool (participants excludes : List String) : List String :=
  List.insertionSort (fun a b => strLe a b = true)
    ((participants.filter (fun p => decide (p ∉ excludes))).dedup)

/-- One round of CPython's pool-copy partial Fisher–Yates sampling branch,
maintaining the active pool prefix explicitly as a list:
`j = randbelow(m); result_i = pool[j]; pool[j] = pool[m-1]; m = m - 1`. -/
def sampleGo (s : RngState) (pool : List String) : Nat → List String × RngState
  | 0 => ([], s)
  | k + 1 =>
    let m := pool.length
    let (j, s') := randbelow s m
    let x := pool.getD j ""
    let last := pool.getD (m - 1) ""
    let pool' := (pool.set j last).dropLast
    let (rest, s'') := sampleGo s' pool' k
    (x :: rest, s'')

/-- Model of `random.sample(population, k)` (CPython): validates
`0 <= k <= n` (`ValueError` otherwise) and draws `k` distinct elements
without replacement by partial Fisher–Yates shuffle. -/
def sample (s : RngState) (population : List String) (k : Int) :
    Except String (List String × RngState) :=
  if 0 ≤ k ∧ k ≤ (population.length : Int) then
    .ok (sampleGo s population k.toNat)
  else
    .error "Sample larger than population or is negative"

/-- Lines 36–51 of `raffle.py` (`pick_winners`), with the process-wide
generator state made explicit: the incoming state `g` is the ambient
`random`-module state at call time; the returned state is the
`random`-module state after the call.  `random.seed(seed_int)` overwrites
the ambient state, so `g` is never read. -/
def pick_winners (g : RngState) (participants excludes : List String)
    (winner_count : Int) (result_seed : String) :
    Except String ((List String × List String) × RngState) :=
  let pool := valid_pool participants excludes
  let count : Int := min winner_count (pool.length : Int)
  match hexToInt result_seed with
  | .error e => .error e
  | .ok n =>
    match sample (seedState n) pool count with
    | .error e => .error e
    | .ok (winners, g2) => .ok ((winners, pool), g2)


instance {ε α : Type} [DecidableEq ε] [DecidableEq α] : DecidableEq (Except ε α) := fun x y =>
  match x, y with
  | .ok a, .ok b =>
    if h : a = b then .isTrue (by rw [h]) else .isFalse (fun hc => h (by injection hc))
  | .error a, .error b =>
    if h : a = b then .isTrue (by rw [h]) else .isFalse (fun hc => h (by injection hc))
  | .ok _, .error _ => .isFalse (fun hc => Except.noConfusion hc)
  | .error _, .ok _ => .isFalse (fun hc => Except.noConfusion hc)

/-- Executable strict lexicographic `<` on strings; Python's `<` on `str`
(used for the archive-filename retention comparison, line 110). -/
def strLt (a b : String) : Bool := strLe a b && !(strLe b a)

/-- Executable check that `pre` is a leading segment of `l`
(`str.startswith`). -/
def listStarts : List Char → List Char → Bool
  | [], _ => true
  | _ :: _, [] => false
  | a :: as, b :: bs => a == b && listStarts as bs

/-- Model of `filename.startswith(pre)` (line 108). -/
def strStarts (pre s : String) : Bool := listStarts pre.data s.data

/-- Model of `filename.endswith(suf)` (line 108). -/
def strEnds (suf s : String) : Bool := listStarts suf.data.reverse s.data.reverse

/-- Wall-clock instant, at the resolution the program consumes (the
`datetime` fields that survive into quarter resolution and parsing). -/
structure DateTime where
  year : Int
  month : Nat
  day : Nat
  hour : Nat
  minute : Nat
deriving DecidableEq, Repr

/-- Gregorian leap-year rule, as implemented by Python's `datetime`. -/
def isLeap (y : Int) : Bool := (y % 4 == 0 && y % 100 != 0) || (y % 400 == 0)

/-- Number of days in a month of a given year. -/
def daysInMonth (y : Int) (m : Nat) : Nat :=
  if m = 2 then (if isLeap y then 29 else 28)
  else if m = 4 ∨ m = 6 ∨ m = 9 ∨ m = 11 then 30
  else 31

/-- Line 65 of `raffle.py`: `kst_now = now + datetime.timedelta(hours=9)` —
the fixed UTC+9 reference-clock shift, with calendar rollover. -/
def addHours9 (d : DateTime) : DateTime :=
  if d.hour + 9 < 24 then
    { d with hour := d.hour + 9 }
  else if d.day + 1 ≤ daysInMonth d.year d.month then
    { d with hour := d.hour + 9 - 24, day := d.day + 1 }
  else if d.month + 1 ≤ 12 then
    { d with hour := d.hour + 9 - 24, day := 1, month := d.month + 1 }
  else
    { d with hour := d.hour + 9 - 24, day := 1, month := 1, year := d.year + 1 }

/-- One persisted result entry (the JSON objects stored in
`data/results.json` and the archive files, lines 197–206).  `timestamp` is
optional because `manage_archives` tolerates entries missing the field
(`KeyError`, line 137). -/
structure Entry where
  id : String
  git_version : String
  timestamp : Option String
  winners : List String
  participants : List String
  excludes : List String
  result_seed : String
  link : Option String
deriving DecidableEq, Repr

/-- Decimal digit value of a character, if any. -/
def decDigit (c : Char) : Option Nat :=
  if '0' ≤ c ∧ c ≤ '9' then some (c.toNat - 48) else none

/-- Model of `datetime.fromisoformat(entry['timestamp'])` followed by
`.year`/`.month` (lines 130–133): parses the leading `YYYY-MM-DD` date
portion with range validation; `none` models both the `KeyError` of a
missing field and the `ValueError` of an unparseable timestamp. -/
def parseYM (ts : Option String) : Option (Int × Nat) :=
  match ts with
  | none => none
  | some s =>
    match s.data with
    | y1 :: y2 :: y3 :: y4 :: '-' :: m1 :: m2 :: '-' :: d1 :: d2 :: _ =>
      match decDigit y1, decDigit y2, decDigit y3, decDigit y4,
          decDigit m1, decDigit m2, decDigit d1, decDigit d2 with
      | some a, some b, some c, some d, some e, some f, some g, some h =>
        let y : Nat := ((a * 10 + b) * 10 + c) * 10 + d
        let m : Nat := e * 10 + f
        let dd : Nat := g * 10 + h
        if 1 ≤ y ∧ 1 ≤ m ∧ m ≤ 12 ∧ 1 ≤ dd ∧ dd ≤ daysInMonth (y : Int) m then
          some ((y : Int), m)
        else none
      | _, _, _, _, _, _, _, _ => none
    | _ => none

/-- Content of one JSON store file: a decode failure (`json.JSONDecodeError`)
or the decoded list of entries (the program only ever writes JSON arrays of
entry objects). -/
abbrev FileContent := Except Unit (List Entry)

/-- The files the program touches: the live history store
(`data/results.json`; `none` = file absent) and the archive directory
(`data/archive`; `none` = directory absent, otherwise filename/content
pairs). -/
structure FS where
  resultsFile : Option FileContent
  archiveDir : Option (List (String × FileContent))
deriving DecidableEq

/-- Reading a file from the archive directory by name. -/
def lookupFile (name : String) : List (String × FileContent) → Option FileContent
  | [] => none
  | (n, c) :: t => if n = name then some c else lookupFile name t

/-- Whole-file (over)write of a named file in the archive directory. -/
def setFile (name : String) (c : FileContent) (dir : List (String × FileContent)) :
    List (String × FileContent) :=
  (name, c) :: dir.filter (fun p => decide (p.1 ≠ name))

/-- Archive filename construction (lines 103 and 146):
`f"archive_{year}_Q{quarter}.json"`. -/
def archiveName (y : Int) (q : Nat) : String := s!"archive_{y}_Q{q}.json"

/-- Lines 79–94: quarter resolution from the reference-clock month.  Returns
`(target_year, target_q, start_month, end_month)`; `none` in a non-trigger
month. -/
def quarterTarget (m : Nat) (y : Int) : Option (Int × Nat × Nat × Nat) :=
  if m = 1 then some (y - 1, 4, 10, 13)
  else if m = 4 then some (y, 1, 1, 4)
  else if m = 7 then some (y, 2, 4, 7)
  else if m = 10 then some (y, 3, 7, 10)
  else none

/-- Lines 130–133: an entry belongs to the target quarter iff its parsed
timestamp year equals the target year and its month is in
`[start_month, end_month)`; unparseable timestamps never match. -/
def belongsTo (ty : Int) (sm em : Nat) (e : Entry) : Bool :=
  match parseYM e.timestamp with
  | some (y, m) => y == ty && decide (sm ≤ m) && decide (m < em)
  | none => false

/-- Lines 107–112: the retention sweep deletes every `archive_*.json` file
whose name sorts strictly before the limit filename. -/
def retentionSweep (limit : String) (dir : List (String × FileContent)) :
    List (String × FileContent) :=
  dir.filter (fun p => !(strStarts "archive_" p.1 && strEnds ".json" p.1 && strLt p.1 limit))

/-- The archive directory as it stands after the retention sweep. -/
def postRetentionDir (ty : Int) (tq : Nat) (fs : FS) : List (String × FileContent) :=
  ((fs.archiveDir.map (retentionSweep (archiveName (ty - 2) tq))).getD [])

/-- Contents of an existing readable archive file, else `[]` (lines
149–157: a missing or unreadable existing archive contributes nothing). -/
def oldArchiveContents (name : String) (dir : List (String × FileContent)) : List Entry :=
  match lookupFile name dir with
  | some (.ok ex) => ex
  | _ => []

/-- Lines 98–166 of `raffle.py`: the archive work done once the trigger
month has resolved to a target quarter — retention sweep, load, partition,
merge, rewrite. `rc` is the content of the (existing) results file. -/
def archivePhase (ty : Int) (tq sm em : Nat) (rc : FileContent) (fs : FS) : FS :=
  let dir1 := fs.archiveDir.map (retentionSweep (archiveName (ty - 2) tq))
  let fs1 : FS := { fs with archiveDir := dir1 }
  match rc with
  | .error _ => fs1
  | .ok data =>
    if data = [] then fs1
    else
      let toArchive := data.filter (belongsTo ty sm em)
      let toKeep := data.filter (fun e => !(belongsTo ty sm em e))
      if toArchive = [] then fs1
      else
        let d := dir1.getD []
        let aname := archiveName ty tq
        let merged :=
          match lookupFile aname d with
          | some (.ok existing) => existing ++ toArchive
          | some (.error _) => toArchive
          | none => toArchive
        { resultsFile := some (.ok toKeep), archiveDir := some (setFile aname (.ok merged) d) }

/-- Lines 53–166 of `raffle.py` (`manage_archives`): no-op when the results
file is absent; resolve the reference-clock (UTC+9) month; no-op outside
the four trigger months; otherwise run the archive phase. -/
def manage_archives (utc : DateTime) (fs : FS) : FS :=
  match fs.resultsFile with
  | none => fs
  | some rc =>
    let kst := addHours9 utc
    match quarterTarget kst.month kst.year with
    | none => fs
    | some (ty, tq, sm, em) => archivePhase ty tq sm em rc fs

/-- Trigger payload after field extraction (lines 177–186): `maintenance`
is the `is True` check on the optional flag; the other fields carry the
documented defaults when absent; `winner_count` is the value after `int()`
coercion. -/
structure InputData where
  maintenance : Bool
  secret_seed : String
  participants : List String
  excludes : List String
  winner_count : Int
  link : Option String
deriving DecidableEq, Repr

/-- Field values an empty payload map `{}` yields (lines 183–186). -/
def defaultInput : InputData :=
  { maintenance := false, secret_seed := "", participants := [], excludes := [],
    winner_count := 1, link := none }

/-- Outcome of one process invocation: exit status, whether it ended in an
uncaught exception, and the final file-system state. -/
structure MainResult where
  exitCode : Nat
  crashed : Bool
  fs : FS
deriving DecidableEq

/-- Lines 168–226 of `raffle.py` (`main`).  `payload` is `none` when
`sys.argv[1]` is missing (`IndexError`) and `some (.error ())` when it is
unparseable (`json.JSONDecodeError`); both fall back to the empty map.
Clock- and environment-derived values (the public seed, the derived result
seed, the entry id, the git revision) enter as parameters, as does the
ambient process-wide generator state `g`. -/
def main (payload : Option (Except Unit InputData)) (g : RngState) (utc : DateTime)
    (publicSeed result_seed entryId gitVer : String) (fs : FS) : MainResult :=
  let input :=
    match payload with
    | some (.ok i) => i
    | _ => defaultInput
  if input.maintenance then
    { exitCode := 0, crashed := false, fs := manage_archives utc fs }
  else if input.participants = [] then
    { exitCode := 0, crashed := false, fs := fs }
  else
    match pick_winners g input.participants input.excludes input.winner_count result_seed with
    | .error _ => { exitCode := 1, crashed := true, fs := fs }
    | .ok ((winners, pool), _) =>
      let entry : Entry :=
        { id := entryId, git_version := gitVer, timestamp := some publicSeed,
          winners := winners, participants := pool, excludes := input.excludes,
          result_seed := result_seed, link := input.link }
      let current :=
        match fs.resultsFile with
        | some (.ok l) => l
        | _ => []
      { exitCode := 0, crashed := false,
        fs := { fs with resultsFile := some (.ok (current ++ [entry])) } }

/-- Concrete store entry dated in October 2025, for concrete runs. -/
def entryOct : Entry :=
  { id := "1", git_version := "v", timestamp := some "2025-10-05T12:00:00+00:00",
    winners := [], participants := [], excludes := [], result_seed := "", link := none }

/-- Concrete store entry dated in November 2025, for concrete runs. -/
def entryNov : Entry :=
  { id := "2", git_version := "v", timestamp := some "2025-11-20T12:00:00+00:00",
    winners := [], participants := [], excludes := [], result_seed := "", link := none }

/-- Concrete store entry dated in January 2026, for concrete runs. -/
def entryJan : Entry :=
  { id := "3", git_version := "v", timestamp := some "2026-01-10T12:00:00+00:00",
    winners := [], participants := [], excludes := [], result_seed := "", link := none }

/-- Concrete file-system state holding the three entries above and an empty
archive directory. -/
def storeFS : FS :=
  { resultsFile := some (.ok [entryOct, entryNov, entryJan]), archiveDir := some [] }

/-- Concrete file-system state with an empty results list and two archive
files, one older than the retention window. -/
def archFS : FS :=
  { resultsFile := some (.ok []),
    archiveDir := some [("archive_2022_Q1.json", .ok []), ("archive_2024_Q2.json", .ok [])] }

/-- The executable comparison agrees with the list order underlying the
standard string order. -/
theorem charListLe_iff : ∀ as bs : List Char, charListLe as bs = true ↔ ¬ List.lt bs as := by
  intro as
  induction as with
  | nil =>
    intro bs
    refine iff_of_true rfl ?_
    intro h
    cases bs with
    | nil => cases h
    | cons b bs => cases h
  | cons a as ih =>
    intro bs
    cases bs with
    | nil =>
      refine iff_of_false (by simp [charListLe]) ?_
      exact not_not_intro (List.lt.nil a as)
    | cons b bs =>
      by_cases hab : a < b
      · refine iff_of_true (by simp [charListLe, hab]) ?_
        intro h
        cases h with
        | head _ _ h' => exact absurd h' (lt_asymm hab)
        | tail h1 h2 h3 => exact h2 hab
      · by_cases hba : b < a
        · refine iff_of_false (by simp [charListLe, hab, hba]) ?_
          exact not_not_intro (List.lt.head _ _ hba)
        · have hstep : charListLe (a :: as) (b :: bs) = charListLe as bs := by
            simp [charListLe, hab, hba]
          rw [hstep, ih bs]
          constructor
          · intro h hc
            cases hc with
            | head _ _ h' => exact hba h'
            | tail _ _ h3 => exact h h3
          · intro h hc
            exact h (List.lt.tail hba hab hc)

/-- The executable string comparison is the standard string order. -/
theorem strLe_iff (a b : String) : strLe a b = true ↔ a ≤ b := by
  have h1 : (b < a) ↔ List.lt b.data a.data :=
    String.lt_iff_toList_lt.trans (List.lt_iff_lex_lt b.data a.data).symm
  rw [strLe, charListLe_iff, ← not_lt]
  exact not_congr h1.symm

/-- Totality of the executable string comparison. -/
theorem strLe_total (a b : String) : strLe a b = true ∨ strLe b a = true := by
  rcases le_total a b with h | h
  · exact Or.inl ((strLe_iff a b).2 h)
  · exact Or.inr ((strLe_iff b a).2 h)

/-- Transitivity of the executable string comparison. -/
theorem strLe_trans (a b c : String) (h1 : strLe a b = true) (h2 : strLe b c = true) :
    strLe a c = true :=
  (strLe_iff a c).2 (le_trans ((strLe_iff a b).1 h1) ((strLe_iff b c).1 h2))

/-- The executable strict comparison is the standard string order. -/
theorem strLt_iff (a b : String) : strLt a b = true ↔ a < b := by
  rw [strLt, Bool.and_eq_true, Bool.not_eq_true', lt_iff_le_not_le]
  constructor
  · rintro ⟨h1, h2⟩
    refine ⟨(strLe_iff a b).1 h1, fun hc => ?_⟩
    rw [(strLe_iff b a).2 hc] at h2
    exact Bool.noConfusion h2
  · rintro ⟨h1, h2⟩
    refine ⟨(strLe_iff a b).2 h1, ?_⟩
    cases hb : strLe b a with
    | false => rfl
    | true => exact absurd ((strLe_iff b a).1 hb) h2

/-- Removing the last element of a nonempty list and putting it in front is a
permutation of the list. -/
theorem perm_last {α : Type} (d : α) :
    ∀ (t : List α), t ≠ [] → t.Perm (t.getD (t.length - 1) d :: t.dropLast) := by
  intro t
  induction t with
  | nil => intro h; exact absurd rfl h
  | cons x t ih =>
    intro _
    cases t with
    | nil => simp
    | cons y t' =>
      have h2 := ih (by simp)
      have hlen : (x :: y :: t').length - 1 = (y :: t').length := by simp
      have hgetD : (x :: y :: t').getD ((y :: t').length) d
          = (y :: t').getD ((y :: t').length - 1) d := by
        simp [List.getD_cons_succ]
      have hdrop : (x :: y :: t').dropLast = x :: (y :: t').dropLast := rfl
      rw [hlen, hgetD, hdrop]
      exact (h2.cons x).trans (List.Perm.swap _ _ _)

/-- One Fisher–Yates step is a permutation: picking index `j`, moving the
last element into slot `j` and chopping the last slot yields (picked element,
remaining pool) that together permute the original pool. -/
theorem perm_swap_step {α : Type} (d : α) :
    ∀ (l : List α) (j : Nat), j < l.length →
      l.Perm (l.getD j d :: ((l.set j (l.getD (l.length - 1) d)).dropLast)) := by
  intro l
  induction l with
  | nil => intro j hj; simp at hj
  | cons x t ih =>
    intro j hj
    cases j with
    | zero =>
      cases t with
      | nil => simp
      | cons y t' =>
        have hlast : (x :: y :: t').getD ((x :: y :: t').length - 1) d
            = (y :: t').getD ((y :: t').length - 1) d := by
          simp [List.getD_cons_succ]
        rw [hlast]
        have hset : (x :: y :: t').set 0 ((y :: t').getD ((y :: t').length - 1) d)
            = ((y :: t').getD ((y :: t').length - 1) d) :: y :: t' := rfl
        rw [hset]
        have hdrop : (((y :: t').getD ((y :: t').length - 1) d) :: y :: t').dropLast
            = ((y :: t').getD ((y :: t').length - 1) d) :: (y :: t').dropLast := rfl
        rw [hdrop]
        have := perm_last d (y :: t') (by simp)
        simpa using this.cons x
    | succ k =>
      cases t with
      | nil => simp at hj
      | cons y t' =>
        have hk : k < (y :: t').length := by
          simpa using Nat.lt_of_succ_lt_succ hj
        have hgetD : (x :: y :: t').getD (k + 1) d = (y :: t').getD k d := by
          simp [List.getD_cons_succ]
        have hlast : (x :: y :: t').getD ((x :: y :: t').length - 1) d
            = (y :: t').getD ((y :: t').length - 1) d := by
          simp [List.getD_cons_succ]
        have hset : (x :: y :: t').set (k + 1) ((y :: t').getD ((y :: t').length - 1) d)
            = x :: (y :: t').set k ((y :: t').getD ((y :: t').length - 1) d) := rfl
        rw [hgetD, hlast, hset]
        have hne : (y :: t').set k ((y :: t').getD ((y :: t').length - 1) d) ≠ [] := by
          intro hc
          have := congrArg List.length hc
          simp at this
        have hdrop : (x :: (y :: t').set k ((y :: t').getD ((y :: t').length - 1) d)).dropLast
            = x :: ((y :: t').set k ((y :: t').getD ((y :: t').length - 1) d)).dropLast := by
          cases hs : (y :: t').set k ((y :: t').getD ((y :: t').length - 1) d) with
          | nil => exact absurd hs hne
          | cons a u => rfl
        rw [hdrop]
        exact ((ih k hk).cons x).trans (List.Perm.swap _ _ _)

/-- Core correctness of the modelled partial Fisher–Yates sampler: on a
duplicate-free pool, drawing `k ≤ |pool|` elements yields exactly `k`
pairwise-distinct elements of the pool. -/
theorem sampleGo_spec :
    ∀ (k : Nat) (s : RngState) (pool : List String), k ≤ pool.length → pool.Nodup →
      (sampleGo s pool k).1.length = k ∧ (sampleGo s pool k).1.Nodup ∧
        ∀ x ∈ (sampleGo s pool k).1, x ∈ pool := by
  intro k
  induction k with
  | zero => intro s pool _ _; simp [sampleGo]
  | succ k ih =>
    intro s pool hk hnd
    have hm : 0 < pool.length := Nat.lt_of_lt_of_le (Nat.succ_pos k) hk
    have hj : (randbelow s pool.length).1 < pool.length := by
      unfold randbelow
      exact Nat.mod_lt _ hm
    have hperm := perm_swap_step "" pool (randbelow s pool.length).1 hj
    have hnd' := hperm.nodup hnd
    rw [List.nodup_cons] at hnd'
    have hlen' : ((pool.set (randbelow s pool.length).1
        (pool.getD (pool.length - 1) "")).dropLast).length = pool.length - 1 := by
      have := hperm.length_eq
      simpa using this.symm
    have hk' : k ≤ ((pool.set (randbelow s pool.length).1
        (pool.getD (pool.length - 1) "")).dropLast).length := by
      rw [hlen']
      omega
    obtain ⟨hlen, hndrest, hmem⟩ := ih (randbelow s pool.length).2 _ hk' hnd'.2
    refine ⟨?_, ?_, ?_⟩
    · simp only [sampleGo]
      simpa using hlen
    · simp only [sampleGo]
      refine List.nodup_cons.2 ⟨?_, hndrest⟩
      intro hc
      exact hnd'.1 (hmem _ hc)
    · simp only [sampleGo]
      intro x hx
      rcases List.mem_cons.1 hx with h | h
      · subst h
        exact hperm.symm.subset (List.mem_cons_self _ _)
      · exact hperm.symm.subset (List.mem_cons.2 (Or.inr (hmem _ h)))

/-- Unpacking a successful `sample` call. -/
theorem sample_ok {s : RngState} {pool : List String} {k : Int} {w : List String}
    {g' : RngState} (h : sample s pool k = .ok (w, g')) :
    0 ≤ k ∧ k ≤ (pool.length : Int) ∧ w = (sampleGo s pool k.toNat).1 := by
  unfold sample at h
  split at h
  · rename_i hcond
    refine ⟨hcond.1, hcond.2, ?_⟩
    injection h with h
    exact (congrArg Prod.fst h).symm
  · exact absurd h (by simp)

/-- The valid pool is duplicate-free. -/
theorem valid_pool_nodup (participants excludes : List String) :
    (valid_pool participants excludes).Nodup := by
  unfold valid_pool
  exact (List.perm_insertionSort _ _).symm.nodup (List.nodup_dedup _)

/-- Unpacking a successful `pick_winners` call: the returned pool is the
valid pool, and the winners are `min(count, |pool|)` distinct pool members. -/
theorem pick_winners_ok {g : RngState} {participants excludes : List String}
    {wc : Int} {seed : String} {w pool : List String} {g' : RngState}
    (h : pick_winners g participants excludes wc seed = .ok ((w, pool), g')) :
    pool = valid_pool participants excludes ∧
      (w.length : Int) = min wc (pool.length : Int) ∧ w.Nodup ∧
      ∀ x ∈ w, x ∈ pool := by
  unfold pick_winners at h
  cases hhex : hexToInt seed with
  | error e => simp only [hhex] at h; exact Except.noConfusion h
  | ok n =>
    simp only [hhex] at h
    cases hs : sample (seedState n) (valid_pool participants excludes)
        (min wc ((valid_pool participants excludes).length : Int)) with
    | error e => simp only [hs] at h; exact Except.noConfusion h
    | ok r =>
      obtain ⟨w', g2⟩ := r
      simp only [hs] at h
      simp only [Except.ok.injEq, Prod.mk.injEq] at h
      obtain ⟨⟨hw, hpool⟩, _⟩ := h
      subst hw hpool
      obtain ⟨hk0, hkn, hwdef⟩ := sample_ok hs
      have hkle : (min wc ((valid_pool participants excludes).length : Int)).toNat
          ≤ (valid_pool participants excludes).length := Int.toNat_le.2 hkn
      obtain ⟨hlen, hnd, hmem⟩ := sampleGo_spec _ (seedState n) _ hkle
        (valid_pool_nodup participants excludes)
      rw [← hwdef] at hlen hnd hmem
      refine ⟨rfl, ?_, hnd, hmem⟩
      rw [hlen, Int.toNat_of_nonneg hk0]

/-- Membership in the valid pool is exactly participation minus exclusion. -/
theorem valid_pool_mem (participants excludes : List String) (x : String) :
    x ∈ valid_pool participants excludes ↔ x ∈ participants ∧ x ∉ excludes := by
  unfold valid_pool
  rw [(List.perm_insertionSort _ _).mem_iff, List.mem_dedup, List.mem_filter]
  simp

/-- C1 (Selector determinism): for a fixed tuple (participants, excludes,
winnerCount, resultSeed), the winners/pool result of `pick_winners` is the
same on every call, whatever the ambient process-wide generator state was
when the call started (the code re-seeds before sampling). -/
theorem selector_determinism (g₁ g₂ : RngState) (participants excludes : List String)
    (winner_count : Int) (result_seed : String) :
    (pick_winners g₁ participants excludes winner_count result_seed).map Prod.fst =
      (pick_winners g₂ participants excludes winner_count result_seed).map Prod.fst := rfl

/-- C2 (Subset law): on a successful call with `winnerCount ≥ 0`, every
winner is in the returned pool, the winners are duplicate-free, and there
are exactly `min(winnerCount, |pool|)` of them. -/
theorem subset_law (g : RngState) (participants excludes : List String)
    (wc : Int) (seed : String) (w pool : List String) (g' : RngState)
    (hwc : 0 ≤ wc)
    (h : pick_winners g participants excludes wc seed = .ok ((w, pool), g')) :
    (∀ x ∈ w, x ∈ pool) ∧ w.Nodup ∧ (w.length : Int) = min wc (pool.length : Int) := by
  obtain ⟨_, hlen, hnd, hmem⟩ := pick_winners_ok h
  exact ⟨hmem, hnd, hlen⟩

/-- Witness for C2 at the spec's own example: participants
`["b","a","c","a"]`, excludes `["c"]`, two winners, seed `"ff"`. -/
theorem subset_law_witness :
    (0 : Int) ≤ 2 ∧
      ((∀ x ∈ (["b", "a"] : List String), x ∈ (["a", "b"] : List String)) ∧
        (["b", "a"] : List String).Nodup ∧
        (((["b", "a"] : List String).length : Int)
          = min 2 (((["a", "b"] : List String).length : Int)))) :=
  ⟨by decide, subset_law ⟨0⟩ ["b", "a", "c", "a"] ["c"] 2 "ff" ["b", "a"] ["a", "b"]
    ⟨1243547037150521417⟩ (by decide) (by decide)⟩

/-- C3 (Pool construction): the pool is the deduplicated, exclusion-filtered
participant set in sorted (strictly increasing lexicographic) order; no
excluded identifier is in the pool or among the winners; and a duplicated
participant contributes to the pool exactly as a single occurrence. -/
theorem pool_construction (participants excludes : List String) :
    (valid_pool participants excludes).Sorted (· < ·) ∧
      (∀ x, x ∈ valid_pool participants excludes ↔ x ∈ participants ∧ x ∉ excludes) ∧
      (∀ p l, valid_pool (p :: p :: l) excludes = valid_pool (p :: l) excludes) ∧
      (∀ (g : RngState) (wc : Int) (seed : String) (w pool : List String) (g' : RngState),
        pick_winners g participants excludes wc seed = .ok ((w, pool), g') →
        ∀ x ∈ excludes, x ∉ pool ∧ x ∉ w) := by
  refine ⟨?_, valid_pool_mem participants excludes, ?_, ?_⟩
  · haveI : IsTotal String (fun a b => strLe a b = true) := ⟨strLe_total⟩
    haveI : IsTrans String (fun a b => strLe a b = true) := ⟨strLe_trans⟩
    have hs : (valid_pool participants excludes).Pairwise (fun a b => strLe a b = true) := by
      unfold valid_pool
      exact List.sorted_insertionSort _ _
    have hs' : (valid_pool participants excludes).Sorted (· ≤ ·) :=
      hs.imp (fun h => (strLe_iff _ _).1 h)
    exact hs'.lt_of_le (valid_pool_nodup participants excludes)
  · intro p l
    unfold valid_pool
    by_cases hp : p ∈ excludes
    · simp [List.filter_cons, hp]
    · simp only [List.filter_cons, hp, not_false_eq_true, decide_eq_true_eq, decide_not,
        Bool.not_eq_true', decide_eq_false_iff_not, ite_not, if_neg hp, if_true]
      rw [List.dedup_cons_of_mem (List.mem_cons_self p _)]
  · intro g wc seed w pool g' h x hx
    obtain ⟨hpool, _, _, hmem⟩ := pick_winners_ok h
    subst hpool
    have hxp : x ∉ valid_pool participants excludes := fun hc =>
      ((valid_pool_mem participants excludes x).1 hc).2 hx
    exact ⟨hxp, fun hc => hxp (hmem _ hc)⟩

/-- Witness for C3: with excludes `["c"]`, the excluded identifier is in
neither the returned pool nor the winners of a concrete successful draw. -/
theorem pool_construction_witness :
    "c" ∉ (["a", "b"] : List String) ∧ "c" ∉ (["b", "a"] : List String) :=
  (pool_construction ["b", "a", "c", "a"] ["c"]).2.2.2 ⟨0⟩ 2 "ff" ["b", "a"] ["a", "b"]
    ⟨1243547037150521417⟩ (by decide) "c" (by decide)

/-- C7 counterexample: a negative winner count does not succeed with zero
winners; the sampling step rejects it (`ValueError` in the source). -/
theorem negative_count_value_error :
    pick_winners ⟨0⟩ ["a"] [] (-1) "ff"
      = .error "Sample larger than population or is negative" := by decide

/-- C7 as amended: with winner count exactly `0` (and a well-formed
hexadecimal result seed) the call succeeds and yields zero winners. -/
theorem zero_count_no_error (g : RngState) (participants excludes : List String)
    (seed : String) (n : Nat) (h : hexToInt seed = .ok n) :
    pick_winners g participants excludes 0 seed
      = .ok (([], valid_pool participants excludes), seedState n) := by
  have h0 : min (0 : Int) (((valid_pool participants excludes).length : Nat) : Int) = 0 :=
    min_eq_left (Int.natCast_nonneg _)
  simp [pick_winners, h, h0, sample, sampleGo]

/-- Witness for the amended C7 at seed `"ff"` and one participant. -/
theorem zero_count_no_error_witness :
    hexToInt "ff" = .ok 255 ∧
      pick_winners ⟨0⟩ ["a"] [] 0 "ff" = .ok (([], ["a"]), (⟨255⟩ : RngState)) :=
  ⟨by decide, zero_count_no_error ⟨0⟩ ["a"] [] "ff" 255 (by decide)⟩

/-- C9 counterexample: at participants `["b","a","c","a"]`, excludes
`["c"]`, winner count 2, seed `"ff"`, the winners come out as `["b","a"]`
while the pool is `["a","b"]` — the winners list is not a subsequence of the
pool (the relative order is inverted). -/
theorem winners_not_in_pool_order :
    (pick_winners ⟨0⟩ ["b", "a", "c", "a"] ["c"] 2 "ff").map Prod.fst
        = .ok (["b", "a"], ["a", "b"]) ∧
      ¬ (["b", "a"] : List String).Sublist (["a", "b"] : List String) := by
  refine ⟨by decide, fun hsub => ?_⟩
  have := hsub.eq_of_length rfl
  exact absurd this (by decide)

/-- C9 as amended: the winners are distinct elements of the returned pool,
`min(winnerCount, |pool|)` of them, in the sampler's emission order (which
need not be the pool's order). -/
theorem winners_distinct_pool_members (g : RngState) (participants excludes : List String)
    (wc : Int) (seed : String) (w pool : List String) (g' : RngState)
    (hwc : 0 ≤ wc)
    (h : pick_winners g participants excludes wc seed = .ok ((w, pool), g')) :
    w.Nodup ∧ (∀ x ∈ w, x ∈ pool) ∧ w.length = min wc.toNat pool.length := by
  obtain ⟨_, hlen, hnd, hmem⟩ := pick_winners_ok h
  refine ⟨hnd, hmem, ?_⟩
  omega

/-- Witness for the amended C9 at the spec's example draw. -/
theorem winners_distinct_pool_members_witness :
    (0 : Int) ≤ 2 ∧
      ((["b", "a"] : List String).Nodup ∧
        (∀ x ∈ (["b", "a"] : List String), x ∈ (["a", "b"] : List String)) ∧
        (["b", "a"] : List String).length = min (2 : Int).toNat (["a", "b"] : List String).length) :=
  ⟨by decide, winners_distinct_pool_members ⟨0⟩ ["b", "a", "c", "a"] ["c"] 2 "ff"
    ["b", "a"] ["a", "b"] ⟨1243547037150521417⟩ (by decide) (by decide)⟩

/-- C10 counterexample: `pick_winners` runs `random.seed` + `random.sample`
on the process-wide generator; after a concrete successful call the ambient
generator state differs from what it was before the call, so state outside
the call's locals is mutated. -/
theorem global_rng_state_mutated :
    pick_winners ⟨0⟩ ["a"] [] 1 "ff"
        = .ok ((["a"], ["a"]), (⟨983953635380637474⟩ : RngState)) ∧
      (⟨983953635380637474⟩ : RngState) ≠ (⟨0⟩ : RngState) :=
  ⟨by decide, by decide⟩

/-- C10 as amended: the call never reads the prior process-wide generator
state — its entire result, final generator state included, coincides with
the result from any other prior state (it re-seeds first) — but it does
overwrite that shared state, as the counterexample shows. -/
theorem prior_global_rng_state_ignored (g : RngState) (participants excludes : List String)
    (wc : Int) (seed : String) :
    pick_winners g participants excludes wc seed
      = pick_winners ⟨0⟩ participants excludes wc seed := rfl

/-- C4 (Quarter resolution and no-op months): maintenance reads the clock
as UTC shifted by +9 hours; months outside {1,4,7,10} modify no files; month
1 archives (year−1, Q4, months 10–12), month 4 (year, Q1, months 1–3),
month 7 (year, Q2, months 4–6), month 10 (year, Q3, months 7–9). -/
theorem quarter_resolution (utc : DateTime) (fs : FS) :
    (utc.hour + 9 < 24 →
      addHours9 utc = ⟨utc.year, utc.month, utc.day, utc.hour + 9, utc.minute⟩) ∧
    ((addHours9 utc).month ∉ ([1, 4, 7, 10] : List Nat) → manage_archives utc fs = fs) ∧
    (∀ rc, fs.resultsFile = some rc →
      ((addHours9 utc).month = 1 →
        manage_archives utc fs = archivePhase ((addHours9 utc).year - 1) 4 10 13 rc fs) ∧
      ((addHours9 utc).month = 4 →
        manage_archives utc fs = archivePhase (addHours9 utc).year 1 1 4 rc fs) ∧
      ((addHours9 utc).month = 7 →
        manage_archives utc fs = archivePhase (addHours9 utc).year 2 4 7 rc fs) ∧
      ((addHours9 utc).month = 10 →
        manage_archives utc fs = archivePhase (addHours9 utc).year 3 7 10 rc fs)) := by
  refine ⟨?_, ?_, ?_⟩
  · intro h
    simp [addHours9, h]
  · intro h
    have h1 : (addHours9 utc).month ≠ 1 := fun hc => h (by simp [hc])
    have h4 : (addHours9 utc).month ≠ 4 := fun hc => h (by simp [hc])
    have h7 : (addHours9 utc).month ≠ 7 := fun hc => h (by simp [hc])
    have h10 : (addHours9 utc).month ≠ 10 := fun hc => h (by simp [hc])
    unfold manage_archives
    cases hrf : fs.resultsFile with
    | none => rfl
    | some rc => simp [quarterTarget, h1, h4, h7, h10]
  · intro rc hrc
    refine ⟨?_, ?_, ?_, ?_⟩ <;> intro hm <;>
      · unfold manage_archives
        rw [hrc]
        simp [quarterTarget, hm]

/-- Witness for C4: a run with reference-clock month 5 changes nothing; a
run with reference-clock month 1 (January 2026) runs the archive phase for
(2025, Q4, months 10–12). -/
theorem quarter_resolution_witness :
    manage_archives ⟨2026, 5, 10, 3, 0⟩
        { resultsFile := some (.ok []), archiveDir := none }
      = { resultsFile := some (.ok []), archiveDir := none } ∧
    manage_archives ⟨2026, 1, 15, 3, 0⟩
        { resultsFile := some (.ok []), archiveDir := none }
      = archivePhase 2025 4 10 13 (.ok [])
          { resultsFile := some (.ok []), archiveDir := none } :=
  ⟨(quarter_resolution ⟨2026, 5, 10, 3, 0⟩
      { resultsFile := some (.ok []), archiveDir := none }).2.1 (by decide),
   ((quarter_resolution ⟨2026, 1, 15, 3, 0⟩
      { resultsFile := some (.ok []), archiveDir := none }).2.2 (.ok []) rfl).1 (by decide)⟩

/-- Counting an element across the two halves of a Boolean partition. -/
theorem count_filter_split {α : Type} [DecidableEq α] (p : α → Bool) (l : List α) (e : α) :
    l.count e = (l.filter p).count e + (l.filter (fun x => !(p x))).count e := by
  induction l with
  | nil => simp
  | cons a t ih =>
    cases hpa : p a with
    | true =>
      have h1 : (a :: t).filter p = a :: t.filter p := by simp [List.filter_cons, hpa]
      have h2 : (a :: t).filter (fun x => !(p x)) = t.filter (fun x => !(p x)) := by
        simp [List.filter_cons, hpa]
      rw [h1, h2, List.count_cons, List.count_cons, ih]
      ring
    | false =>
      have h1 : (a :: t).filter p = t.filter p := by simp [List.filter_cons, hpa]
      have h2 : (a :: t).filter (fun x => !(p x)) = a :: t.filter (fun x => !(p x)) := by
        simp [List.filter_cons, hpa]
      rw [h1, h2, List.count_cons, List.count_cons, ih]
      ring

/-- Unfolding the quarter-membership test into the parsed timestamp. -/
theorem belongsTo_iff (ty : Int) (sm em : Nat) (e : Entry) :
    belongsTo ty sm em e = true ↔
      ∃ y m, parseYM e.timestamp = some (y, m) ∧ y = ty ∧ sm ≤ m ∧ m < em := by
  unfold belongsTo
  cases hp : parseYM e.timestamp with
  | none => simp
  | some ym =>
    obtain ⟨y, m⟩ := ym
    simp only [Bool.and_eq_true, beq_iff_eq, decide_eq_true_eq, Option.some.injEq,
      Prod.mk.injEq]
    constructor
    · rintro ⟨⟨h1, h2⟩, h3⟩
      exact ⟨y, m, ⟨rfl, rfl⟩, h1, h2, h3⟩
    · rintro ⟨y', m', ⟨hy, hm⟩, h1, h2, h3⟩
      subst hy; subst hm
      exact ⟨⟨h1, h2⟩, h3⟩

/-- Reading back the file just written. -/
theorem lookupFile_setFile_self (n : String) (c : FileContent)
    (d : List (String × FileContent)) : lookupFile n (setFile n c d) = some c := by
  simp [setFile, lookupFile]

/-- C5 (Archive partition law): in a trigger month with a readable,
nonempty history store and a nonempty target batch, maintenance rewrites
the live store to exactly the non-matching entries, writes the target
archive as its previous contents followed by the matching entries, loses
and duplicates nothing (counts add up), archives an entry iff its parsed
timestamp hits the target year and month range, and keeps every entry whose
timestamp is missing or unparseable. -/
theorem archive_partition (utc : DateTime) (fs : FS) (data : List Entry)
    (ty : Int) (tq sm em : Nat)
    (hrf : fs.resultsFile = some (.ok data))
    (hqt : quarterTarget (addHours9 utc).month (addHours9 utc).year = some (ty, tq, sm, em))
    (hne : ¬ data = [])
    (hta : ¬ data.filter (belongsTo ty sm em) = []) :
    (manage_archives utc fs).resultsFile
        = some (.ok (data.filter (fun e => !(belongsTo ty sm em e)))) ∧
    lookupFile (archiveName ty tq) (((manage_archives utc fs).archiveDir).getD [])
        = some (.ok (oldArchiveContents (archiveName ty tq) (postRetentionDir ty tq fs)
            ++ data.filter (belongsTo ty sm em))) ∧
    (∀ e : Entry, data.count e
        = (data.filter (belongsTo ty sm em)).count e
          + (data.filter (fun x => !(belongsTo ty sm em x))).count e) ∧
    (∀ e ∈ data, (e ∈ data.filter (belongsTo ty sm em) ↔
      ∃ y m, parseYM e.timestamp = some (y, m) ∧ y = ty ∧ sm ≤ m ∧ m < em)) ∧
    (∀ e ∈ data, parseYM e.timestamp = none →
      e ∈ data.filter (fun x => !(belongsTo ty sm em x))
        ∧ e ∉ data.filter (belongsTo ty sm em)) := by
  have hM : manage_archives utc fs
      = { resultsFile := some (.ok (data.filter (fun e => !(belongsTo ty sm em e)))),
          archiveDir := some (setFile (archiveName ty tq)
            (.ok (oldArchiveContents (archiveName ty tq) (postRetentionDir ty tq fs)
                  ++ data.filter (belongsTo ty sm em)))
            (postRetentionDir ty tq fs)) } := by
    unfold manage_archives
    rw [hrf]
    simp only [hqt]
    unfold archivePhase
    simp only [if_neg hne, if_neg hta]
    unfold oldArchiveContents postRetentionDir
    cases hl : lookupFile (archiveName ty tq)
        ((fs.archiveDir.map (retentionSweep (archiveName (ty - 2) tq))).getD []) with
    | none => simp [hl]
    | some c =>
      cases c with
      | ok ex => simp [hl]
      | error e => simp [hl]
  refine ⟨?_, ?_, ?_, ?_, ?_⟩
  · rw [hM]
  · rw [hM]
    exact lookupFile_setFile_self _ _ _
  · intro e
    exact count_filter_split _ data e
  · intro e he
    rw [List.mem_filter]
    rw [belongsTo_iff]
    simp [he]
  · intro e he hparse
    have hb : belongsTo ty sm em e = false := by
      unfold belongsTo
      rw [hparse]
    constructor
    · rw [List.mem_filter]
      exact ⟨he, by rw [hb]; rfl⟩
    · rw [List.mem_filter]
      rintro ⟨_, hbt⟩
      rw [hb] at hbt
      exact Bool.noConfusion hbt

/-- Witness for C5 at the spec's example: entries dated 2025-10-05,
2025-11-20 and 2026-01-10 with a maintenance run in reference-clock January
2026 — the first two move to `archive_2025_Q4.json`, the third stays. -/
theorem archive_partition_witness :
    (manage_archives ⟨2026, 1, 15, 3, 0⟩ storeFS).resultsFile = some (.ok [entryJan]) ∧
    lookupFile "archive_2025_Q4.json"
        (((manage_archives ⟨2026, 1, 15, 3, 0⟩ storeFS).archiveDir).getD [])
      = some (.ok [entryOct, entryNov]) := by
  have h := archive_partition ⟨2026, 1, 15, 3, 0⟩ storeFS [entryOct, entryNov, entryJan]
    2025 4 10 13 rfl (by decide) (by decide) (by decide)
  refine ⟨?_, ?_⟩
  · rw [h.1]
    decide
  · rw [show ("archive_2025_Q4.json" : String) = archiveName 2025 4 from by decide]
    rw [h.2.1]
    decide

/-- Writing a file never removes any other filename from the directory. -/
theorem mem_map_fst_setFile (n name : String) (c : FileContent)
    (d : List (String × FileContent)) (h : name ∈ d.map Prod.fst) :
    name ∈ (setFile n c d).map Prod.fst := by
  unfold setFile
  by_cases hn : name = n
  · simp [hn]
  · simp only [List.map_cons, List.mem_cons]
    right
    obtain ⟨p, hp, hfst⟩ := List.mem_map.1 h
    refine List.mem_map.2 ⟨p, ?_, hfst⟩
    refine List.mem_filter.2 ⟨hp, ?_⟩
    simp [hfst, hn]

/-- Writing a file introduces no filename other than the one written. -/
theorem not_mem_map_fst_setFile (n name : String) (c : FileContent)
    (d : List (String × FileContent)) (hne : name ≠ n)
    (h : name ∉ d.map Prod.fst) : name ∉ (setFile n c d).map Prod.fst := by
  unfold setFile
  simp only [List.map_cons, List.mem_cons]
  rintro (h1 | h2)
  · exact hne h1
  · obtain ⟨p, hp, hfst⟩ := List.mem_map.1 h2
    exact h (List.mem_map.2 ⟨p, (List.mem_filter.1 hp).1, hfst⟩)

/-- C6 (Retention boundary): in a trigger-month run (with the results file
present and the archive directory existing), every `archive_*.json` file
whose name sorts strictly before `archive_{targetYear−2}_Q{targetQ}.json`
is gone from the directory afterwards, and every one at or above that
boundary is still present.  The hypothesis that the boundary name sorts
below the target archive name encodes the fixed-width-year premise the
filename scheme relies on (it holds for all four-digit years). -/
theorem retention_boundary (utc : DateTime) (fs : FS)
    (dir : List (String × FileContent)) (rc : FileContent)
    (ty : Int) (tq sm em : Nat) (name : String) (content : FileContent)
    (hrf : fs.resultsFile = some rc)
    (had : fs.archiveDir = some dir)
    (hqt : quarterTarget (addHours9 utc).month (addHours9 utc).year = some (ty, tq, sm, em))
    (hord : archiveName (ty - 2) tq < archiveName ty tq)
    (hmem : (name, content) ∈ dir)
    (hstart : strStarts "archive_" name = true)
    (hend : strEnds ".json" name = true) :
    (name < archiveName (ty - 2) tq →
      name ∉ ((manage_archives utc fs).archiveDir.getD []).map Prod.fst) ∧
    (¬ name < archiveName (ty - 2) tq →
      name ∈ ((manage_archives utc fs).archiveDir.getD []).map Prod.fst) := by
  have hM : ∃ d', (manage_archives utc fs).archiveDir = some d' ∧
      (d' = retentionSweep (archiveName (ty - 2) tq) dir ∨
        ∃ c, d' = setFile (archiveName ty tq) c
          (retentionSweep (archiveName (ty - 2) tq) dir)) := by
    unfold manage_archives
    rw [hrf]
    simp only [hqt]
    unfold archivePhase
    rw [had]
    cases rc with
    | error e => exact ⟨_, rfl, Or.inl rfl⟩
    | ok data =>
      by_cases hd : data = []
      · simp only [if_pos hd]
        exact ⟨_, rfl, Or.inl rfl⟩
      · simp only [if_neg hd]
        by_cases hta : data.filter (belongsTo ty sm em) = []
        · simp only [if_pos hta]
          exact ⟨_, rfl, Or.inl rfl⟩
        · simp only [if_neg hta]
          exact ⟨_, rfl, Or.inr ⟨_, rfl⟩⟩
  obtain ⟨d', hd', hcase⟩ := hM
  simp only [hd', Option.getD_some]
  constructor
  · intro hlt
    have hnotin : name ∉ (retentionSweep (archiveName (ty - 2) tq) dir).map Prod.fst := by
      intro hc
      obtain ⟨p, hp, hfst⟩ := List.mem_map.1 hc
      have hkeep := (List.mem_filter.1 hp).2
      rw [hfst] at hkeep
      rw [hstart, hend, (strLt_iff _ _).2 hlt] at hkeep
      exact Bool.noConfusion hkeep
    rcases hcase with rfl | ⟨c, rfl⟩
    · exact hnotin
    · exact not_mem_map_fst_setFile _ _ _ _ (ne_of_lt (lt_trans hlt hord)) hnotin
  · intro hge
    have hin : name ∈ (retentionSweep (archiveName (ty - 2) tq) dir).map Prod.fst := by
      refine List.mem_map.2 ⟨(name, content), ?_, rfl⟩
      refine List.mem_filter.2 ⟨hmem, ?_⟩
      have hfalse : strLt name (archiveName (ty - 2) tq) = false := by
        cases hb : strLt name (archiveName (ty - 2) tq) with
        | false => rfl
        | true => exact absurd ((strLt_iff _ _).1 hb) hge
      simp [hfalse]
    rcases hcase with rfl | ⟨c, rfl⟩
    · exact hin
    · exact mem_map_fst_setFile _ _ _ _ hin

/-- Witness for C6: a January-2026 run over an archive directory holding
`archive_2022_Q1.json` (before the `archive_2023_Q4.json` boundary — it is
deleted) and `archive_2024_Q2.json` (after the boundary — it is kept). -/
theorem retention_boundary_witness :
    "archive_2022_Q1.json" ∉
      ((manage_archives ⟨2026, 1, 15, 3, 0⟩ archFS).archiveDir.getD []).map Prod.fst ∧
    "archive_2024_Q2.json" ∈
      ((manage_archives ⟨2026, 1, 15, 3, 0⟩ archFS).archiveDir.getD []).map Prod.fst :=
  ⟨(retention_boundary ⟨2026, 1, 15, 3, 0⟩ archFS
      [("archive_2022_Q1.json", .ok []), ("archive_2024_Q2.json", .ok [])] (.ok [])
      2025 4 10 13 "archive_2022_Q1.json" (.ok []) rfl rfl (by decide)
      ((strLt_iff _ _).1 (by decide)) (by simp) (by decide) (by decide)).1
      ((strLt_iff _ _).1 (by decide)),
   (retention_boundary ⟨2026, 1, 15, 3, 0⟩ archFS
      [("archive_2022_Q1.json", .ok []), ("archive_2024_Q2.json", .ok [])] (.ok [])
      2025 4 10 13 "archive_2024_Q2.json" (.ok []) rfl rfl (by decide)
      ((strLt_iff _ _).1 (by decide)) (by simp) (by decide) (by decide)).2
      (fun hc => absurd ((strLt_iff _ _).2 hc) (by decide))⟩

/-- C8 counterexample: invoking the draw entry point with a missing payload
terminates with exit status 0 (falling back to the empty payload and then
taking the empty-participants early exit), not with the claimed status 1,
and writes nothing. -/
theorem malformed_payload_exit_zero :
    main none ⟨0⟩ ⟨2026, 5, 10, 3, 0⟩ "ps" "ff" "id" "v"
        { resultsFile := none, archiveDir := none }
      = { exitCode := 0, crashed := false,
          fs := { resultsFile := none, archiveDir := none } } := by decide

/-- C8 as amended: a missing or unparseable payload is tolerated — the
program falls back to the empty payload, takes the draw path with no
participants and exits 0 without writing; an explicitly empty participant
list likewise exits 0 without writing; a successful draw exits 0.  No path
performs a controlled abort with status 1 (a nonzero status arises only
from an uncaught exception, e.g. a negative winner count). -/
theorem malformed_payload_tolerated (payload : Option (Except Unit InputData))
    (g : RngState) (utc : DateTime) (ps rs eid gv : String) (fs : FS)
    (h : payload = none ∨ ∃ e, payload = some (.error e)) :
    main payload g utc ps rs eid gv fs
        = { exitCode := 0, crashed := false, fs := fs } ∧
    (∀ input : InputData, input.maintenance = false → input.participants = [] →
      main (some (.ok input)) g utc ps rs eid gv fs
        = { exitCode := 0, crashed := false, fs := fs }) ∧
    (∀ (input : InputData) (w pool : List String) (g' : RngState),
      input.maintenance = false →
      pick_winners g input.participants input.excludes input.winner_count rs
        = .ok ((w, pool), g') →
      (main (some (.ok input)) g utc ps rs eid gv fs).exitCode = 0) := by
  refine ⟨?_, ?_, ?_⟩
  · rcases h with rfl | ⟨e, rfl⟩ <;> simp [main, defaultInput]
  · intro input h1 h2
    simp [main, h1, h2]
  · intro input w pool g' h1 hpw
    by_cases hp : input.participants = []
    · simp [main, h1, hp]
    · simp [main, h1, hp, hpw]

/-- Witness for the amended C8 at a concrete unparseable payload. -/
theorem malformed_payload_tolerated_witness :
    main (some (.error ())) ⟨0⟩ ⟨2026, 5, 10, 3, 0⟩ "ps" "ff" "id" "v"
        { resultsFile := none, archiveDir := none }
      = { exitCode := 0, crashed := false,
          fs := { resultsFile := none, archiveDir := none } } :=
  (malformed_payload_tolerated (some (.error ())) ⟨0⟩ ⟨2026, 5, 10, 3, 0⟩ "ps" "ff" "id" "v"
    { resultsFile := none, archiveDir := none } (Or.inr ⟨(), rfl⟩)).1

end Raffle
